import Mathlib

/-!
Verification of the task-graph demo program (`main.go`): a merged task
document is inspected by printing the inclusion graph in topological
order, a flat listing of every task, and a recursive dependency tree
from a starting task.  Output is modelled as a list of printed lines;
the unbounded recursion of `showDependencyTree` is modelled with a fuel
parameter where `none` means the recursion does not terminate within
the given fuel.
-/

namespace Meerkat

/-- One explicit dependency entry of a task (`dep.Task` in the source). -/
structure Dep where
  task : String
deriving DecidableEq, Repr

/-- One command entry of a task: a literal command string (`cmd.Cmd`)
and a task-call reference (`cmd.Task`); either may be empty. -/
structure Cmd where
  cmd : String
  task : String
deriving DecidableEq, Repr

/-- One task of the merged document: description, explicit dependencies
in declared order, command entries in declared order. -/
structure Task where
  desc : String
  deps : List Dep
  cmds : List Cmd
deriving DecidableEq, Repr

/-- The merged task document: an ordered mapping from task name to task,
in the provider's iteration order (`mergedTaskfile.Tasks`). -/
abbrev Taskfile := List (String × Task)

/-- Lookup of a task by name (`tf.Tasks.Get(taskName)`). -/
def tasksGet (tf : Taskfile) (name : String) : Option Task :=
  match tf with
  | [] => none
  | (n, t) :: rest => if n = name then some t else tasksGet rest name

/-- The task names referenced by task calls among command entries, in
declared order: `cmd.Task` for each command with `cmd.Task != ""`. -/
def taskCallRefs (cmds : List Cmd) : List String :=
  match cmds with
  | [] => []
  | c :: rest => if c.task = "" then taskCallRefs rest else c.task :: taskCallRefs rest

/-- All task names a task recurses into, in traversal order: explicit
dependencies first, then task calls from commands. -/
def childRefs (t : Task) : List String :=
  t.deps.map Dep.task ++ taskCallRefs t.cmds

/-- Indentation built by the loop `for i := 0; i < depth; i++ { indent += "  " }`. -/
def indentStr : Nat → String
  | 0 => ""
  | d + 1 => indentStr d ++ "  "

/-- Suffix ` - <description>` appended when the description is non-empty. -/
def descSuffix (desc : String) : String :=
  if desc = "" then "" else " - " ++ desc

mutual

/-- The recursive dependency-tree printer `showDependencyTree`, with fuel
bounding the recursion depth; `none` means the fuel was exhausted, i.e.
the source recursion would still be running at that depth. -/
def showDependencyTree (tf : Taskfile) (fuel : Nat) (taskName : String) (depth : Nat) :
    Option (List String) :=
  match fuel with
  | 0 => none
  | fuel' + 1 =>
    match tasksGet tf taskName with
    | none => some [indentStr depth ++ taskName ++ " (not found)"]
    | some t =>
      match showTreeChildren tf fuel' (childRefs t) (depth + 1) with
      | none => none
      | some rest => some ((indentStr depth ++ taskName ++ descSuffix t.desc) :: rest)
termination_by (fuel, 0)

/-- The two recursion loops of `showDependencyTree` (over dependencies and
over task-call commands), flattened into one list of child names. -/
def showTreeChildren (tf : Taskfile) (fuel : Nat) (names : List String) (depth : Nat) :
    Option (List String) :=
  match names with
  | [] => some []
  | n :: rest =>
    match showDependencyTree tf fuel n depth with
    | none => none
    | some out =>
      match showTreeChildren tf fuel rest depth with
      | none => none
      | some more => some (out ++ more)
termination_by (fuel, names.length + 1)

end

/-- Lines printed for one command entry in the flat task listing: a
`    - cmd: <literal>` line when the literal is non-empty, then a
`    - task: <name>` line when the task reference is non-empty. -/
def cmdLines (c : Cmd) : List String :=
  (if c.cmd = "" then [] else ["    - cmd: " ++ c.cmd]) ++
  (if c.task = "" then [] else ["    - task: " ++ c.task])

/-- Lines printed for one task by the flat task lister: the `Task:` line
with optional description, the dependency block when there are
dependencies, the command block when there are command entries, and the
trailing blank line. -/
def taskEntryLines (name : String) (t : Task) : List String :=
  ("Task: " ++ name ++ descSuffix t.desc) ::
  ((if t.deps.isEmpty then [] else
      "  Dependencies:" :: t.deps.map (fun d => "    - " ++ d.task)) ++
   (if t.cmds.isEmpty then [] else
      "  Commands:" :: (t.cmds.map cmdLines).flatten) ++
   [""])

/-- The flat task lister: one entry per task, in the document's iteration
order. -/
def flatTaskLister (tf : Taskfile) : List String :=
  (tf.map (fun p => taskEntryLines p.1 p.2)).flatten

/-- The dependency map built by `buildTaskDependencyGraph`: for each task,
its explicit dependency names followed by its task-call names. -/
def buildTaskDependencyGraph (tf : Taskfile) : List (String × List String) :=
  tf.map (fun p => (p.1, p.2.deps.map Dep.task ++ taskCallRefs p.2.cmds))

/-- An apostrophe character, used in the not-found message. -/
def squote : String := String.singleton (Char.ofNat 39)

/-- The `  - <name>` listing of all available task names, in iteration
order. -/
def availableTaskLines (tf : Taskfile) : List String :=
  tf.map (fun p => "  - " ++ p.1)

/-- The final section of `main`: when the starting task exists, render its
dependency tree from depth 0; otherwise print the not-found message and
the listing of available tasks, without invoking the tree renderer. -/
def showTreeSection (tf : Taskfile) (start : String) (fuel : Nat) : Option (List String) :=
  match tasksGet tf start with
  | some _ => showDependencyTree tf fuel start 0
  | none =>
    some (("Task " ++ squote ++ start ++ squote ++ " not found") ::
          "Available tasks:" :: availableTaskLines tf)

/-- One vertex of the inclusion graph: a resolved document location and
its include declarations, each a namespace name paired with the literal
locator of the included document. -/
structure Vertex where
  uri : String
  includes : List (String × String)
deriving DecidableEq, Repr

/-- Vertex `u` depends on vertex `w` when `u` declares an include whose
locator is `w`'s location. -/
def dependsOnB (u w : Vertex) : Bool :=
  u.includes.any (fun p => p.2 = w.uri)

/-- Vertex `v` can be emitted when it depends on no vertex still
remaining. -/
def emittable (v : Vertex) (remaining : List Vertex) : Bool :=
  remaining.all (fun w => !dependsOnB v w)

/-- Removal of the first occurrence of a vertex from a list. -/
def removeVertex (v : Vertex) : List Vertex → List Vertex
  | [] => []
  | w :: ws => if w = v then ws else w :: removeVertex v ws

/-- Modelled from the spec: the provider's topological-sort routine
(`graph.TopologicalSort`, external library, not under this repository's
sources) — repeatedly emit a vertex all of whose dependencies have
already been emitted, failing when none exists (a cycle); any valid
order is acceptable, and dependencies are emitted before their
dependents. -/
def topoAux : Nat → List Vertex → Option (List Vertex)
  | _, [] => some []
  | 0, _ :: _ => none
  | fuel + 1, r :: rs =>
    match (r :: rs).find? (fun v => emittable v (r :: rs)) with
    | none => none
    | some v => (topoAux fuel (removeVertex v (r :: rs))).map (v :: ·)

/-- Modelled from the spec: topological sort of the whole inclusion
graph. -/
def topoSortIncludes (G : List Vertex) : Option (List Vertex) :=
  topoAux G.length G

/-- Lines printed for one vertex of the inclusion graph at 0-based
position `i`: its 1-based position with its location, then — when it has
includes — the `   Includes:` header and one namespace-and-locator line
per include. -/
def vertexBlock (i : Nat) (v : Vertex) : List String :=
  (toString (i + 1) ++ ". Taskfile: " ++ v.uri) ::
  (if v.includes.isEmpty then [] else
    "   Includes:" :: v.includes.map (fun p => "     - " ++ p.1 ++ ": " ++ p.2))

/-- The printing loop over the sorted vertices, carrying the 0-based
position. -/
def printVerticesFrom : Nat → List Vertex → List String
  | _, [] => []
  | i, v :: vs => vertexBlock i v ++ printVerticesFrom (i + 1) vs

/-- The inclusion-graph printer: all vertex blocks in sorted order. -/
def printInclusionGraph (order : List Vertex) : List String :=
  printVerticesFrom 0 order

/-- The run after the document is obtained: topological sort of the
inclusion graph (fatal on failure, nothing further is printed), the
inclusion listing, the flat task listing, and the dependency-tree
section.  `none` models fatal termination or a non-terminating tree. -/
def runGraphAnalysis (G : List Vertex) (tf : Taskfile) (start : String) (fuel : Nat) :
    Option (List String) :=
  match topoSortIncludes G with
  | none => none
  | some order =>
    match showTreeSection tf start fuel with
    | none => none
    | some treeLines =>
      some (("=== Taskfile Inclusion Graph ===" :: printInclusionGraph order) ++
            ("" :: "=== Task Dependencies ===" :: flatTaskLister tf) ++
            treeLines)

/-- Concatenated output of the flat task lister, one newline per printed
line, as written to standard output. -/
def listerOutput (tf : Taskfile) : String :=
  String.join ((flatTaskLister tf).map (· ++ "\n"))

/-- State-passing view of the inclusion-graph printer: it only reads the
graph. -/
def inclusionPrinterOp (G : List Vertex) : Option (List String) × List Vertex :=
  ((topoSortIncludes G).map printInclusionGraph, G)

/-- State-passing view of the flat task lister: it only reads the
document. -/
def flatTaskListerOp (tf : Taskfile) : List String × Taskfile :=
  (flatTaskLister tf, tf)

/-- State-passing view of the dependency-map builder: it only reads the
document. -/
def buildTaskDependencyGraphOp (tf : Taskfile) : List (String × List String) × Taskfile :=
  (buildTaskDependencyGraph tf, tf)

/-- State-passing view of the dependency-tree renderer: it only reads the
document. -/
def showDependencyTreeOp (tf : Taskfile) (fuel : Nat) (name : String) (d : Nat) :
    Option (List String) × Taskfile :=
  (showDependencyTree tf fuel name d, tf)

/-- Example document from the spec's end-to-end scenario: `build` runs a
literal command, `test` depends on `build`, `default` calls task
`test`. -/
def demoTf : Taskfile :=
  [("build", ⟨"", [], [⟨"echo hi", ""⟩]⟩),
   ("test", ⟨"", [⟨"build"⟩], []⟩),
   ("default", ⟨"", [], [⟨"", "test"⟩]⟩)]

/-- Example document with a three-task dependency chain a → b → c. -/
def chainTf : Taskfile :=
  [("a", ⟨"", [⟨"b"⟩], []⟩),
   ("b", ⟨"", [⟨"c"⟩], []⟩),
   ("c", ⟨"", [], []⟩)]

/-- Example document with a two-task dependency cycle a ↔ b. -/
def cyclicTf : Taskfile :=
  [("a", ⟨"", [⟨"b"⟩], []⟩),
   ("b", ⟨"", [⟨"a"⟩], []⟩)]

/-- Example document containing only the task `default`. -/
def oneDefaultTf : Taskfile := [("default", ⟨"", [], []⟩)]

/-- A rank function witnessing acyclicity of `chainTf`. -/
def rankChain : String → Nat :=
  fun s => if s = "a" then 2 else if s = "b" then 1 else 0

/-- Example inclusion graph: `root` includes `child` under namespace
`ns`. -/
def exampleGraph : List Vertex :=
  [⟨"root", [("ns", "child")]⟩, ⟨"child", []⟩]

/-- A rank function witnessing acyclicity of `exampleGraph`. -/
def rankGraph : String → Nat := fun s => if s = "root" then 1 else 0

/-- Example inclusion graph with a two-document include cycle. -/
def cyclicGraph : List Vertex :=
  [⟨"a", [("x", "b")]⟩, ⟨"b", [("y", "a")]⟩]

/-- A cycle in an inclusion graph: a non-empty list of vertices of the
graph in which every vertex depends on the next one, cyclically. -/
def IsCycle (G : List Vertex) (c : List Vertex) : Prop :=
  c ≠ [] ∧ (∀ v ∈ c, v ∈ G) ∧
    ∀ i : Fin c.length,
      dependsOnB (c.get i) (c.get ⟨(i.1 + 1) % c.length, Nat.mod_lt _ i.pos⟩) = true

instance (G c : List Vertex) : Decidable (IsCycle G c) := by
  unfold IsCycle
  infer_instance

lemma tree_zero (tf : Taskfile) (n : String) (d : Nat) :
    showDependencyTree tf 0 n d = none := by
  rw [showDependencyTree.eq_def]

lemma tree_succ_missing (tf : Taskfile) (n : String) (d fuel : Nat)
    (h : tasksGet tf n = none) :
    showDependencyTree tf (fuel + 1) n d = some [indentStr d ++ n ++ " (not found)"] := by
  rw [showDependencyTree.eq_def]
  simp only [h]

lemma tree_succ_found (tf : Taskfile) (n : String) (t : Task) (d fuel : Nat)
    (h : tasksGet tf n = some t) :
    showDependencyTree tf (fuel + 1) n d =
      Option.map (List.cons (indentStr d ++ n ++ descSuffix t.desc))
        (showTreeChildren tf fuel (childRefs t) (d + 1)) := by
  rw [showDependencyTree.eq_def]
  simp only [h]
  cases showTreeChildren tf fuel (childRefs t) (d + 1) with
  | none => rfl
  | some rest => rfl

lemma children_nil (tf : Taskfile) (fuel d : Nat) :
    showTreeChildren tf fuel [] d = some [] := by
  rw [showTreeChildren.eq_def]

lemma children_cons (tf : Taskfile) (fuel : Nat) (n : String) (rest : List String) (d : Nat) :
    showTreeChildren tf fuel (n :: rest) d =
      (showDependencyTree tf fuel n d).bind
        (fun out => Option.map (out ++ ·) (showTreeChildren tf fuel rest d)) := by
  cases h1 : showDependencyTree tf fuel n d with
  | none =>
    rw [showTreeChildren.eq_def]
    simp [h1]
  | some out =>
    cases h2 : showTreeChildren tf fuel rest d with
    | none =>
      rw [showTreeChildren.eq_def]
      simp [h1, h2]
    | some more =>
      rw [showTreeChildren.eq_def]
      simp [h1, h2]

lemma children_eq_mapM (tf : Taskfile) (fuel : Nat) (names : List String) (d : Nat) :
    showTreeChildren tf fuel names d =
      Option.map List.flatten (names.mapM (fun n => showDependencyTree tf fuel n d)) := by
  induction names with
  | nil => rw [children_nil]; rfl
  | cons n rest ih =>
    rw [children_cons, ih, List.mapM_cons]
    cases showDependencyTree tf fuel n d with
    | none => rfl
    | some out =>
      cases rest.mapM (fun n => showDependencyTree tf fuel n d) with
      | none => rfl
      | some outs => rfl

lemma indentStr_eq (d : Nat) : indentStr d = String.mk (List.replicate (2 * d) ' ') := by
  induction d with
  | zero => rfl
  | succ k ih =>
    have e : 2 * (k + 1) = 2 * k + 2 := by ring
    show indentStr k ++ "  " = _
    rw [ih, e, List.replicate_add]
    rfl

lemma tree_leaf (tf : Taskfile) (n : String) (d fuel : Nat)
    (h : tasksGet tf n = some ⟨"", [], []⟩) :
    showDependencyTree tf (fuel + 1) n d = some [indentStr d ++ n] := by
  rw [tree_succ_found tf n _ d fuel h]
  have hcr : childRefs (⟨"", [], []⟩ : Task) = [] := rfl
  rw [hcr, children_nil]
  simp [descSuffix, String.append_empty]

lemma tree_single_dep (tf : Taskfile) (n m : String) (d fuel : Nat) (out : List String)
    (h : tasksGet tf n = some ⟨"", [⟨m⟩], []⟩)
    (hsub : showDependencyTree tf fuel m (d + 1) = some out) :
    showDependencyTree tf (fuel + 1) n d = some ((indentStr d ++ n) :: out) := by
  rw [tree_succ_found tf n _ d fuel h]
  have hcr : childRefs (⟨"", [⟨m⟩], []⟩ : Task) = [m] := rfl
  rw [hcr, children_cons, hsub, children_nil]
  simp [descSuffix, String.append_empty]

/-- C1: rendering a present task at depth `d` prints one head line made of
`2*d` spaces, the task name, and ` - <description>` appended exactly when
the description is non-empty, and then recurses at depth `d+1` first into
each explicit dependency in declared order and afterwards into each
task-call command entry in declared order, concatenating the recursive
renderings in that order. -/
theorem c1_render_step (tf : Taskfile) (name : String) (t : Task) (d fuel : Nat)
    (h : tasksGet tf name = some t) :
    showDependencyTree tf (fuel + 1) name d =
      Option.map
        (List.cons (String.mk (List.replicate (2 * d) ' ') ++ name ++
          (if t.desc = "" then "" else " - " ++ t.desc)))
        (showTreeChildren tf fuel (t.deps.map Dep.task ++ taskCallRefs t.cmds) (d + 1)) ∧
    ∀ (names : List String) (e : Nat),
      showTreeChildren tf fuel names e =
        Option.map List.flatten (names.mapM (fun n => showDependencyTree tf fuel n e)) := by
  constructor
  · rw [tree_succ_found tf name t d fuel h, indentStr_eq]
    rfl
  · intro names e
    exact children_eq_mapM tf fuel names e

theorem c1_render_step_witness :
    tasksGet demoTf "test" = some ⟨"", [⟨"build"⟩], []⟩ ∧
    showDependencyTree demoTf 4 "test" 0 =
      Option.map
        (List.cons (String.mk (List.replicate (2 * 0) ' ') ++ "test" ++
          (if ("" : String) = "" then "" else " - " ++ "")))
        (showTreeChildren demoTf 3
          (([⟨"build"⟩] : List Dep).map Dep.task ++ taskCallRefs []) (0 + 1)) :=
  ⟨rfl, (c1_render_step demoTf "test" ⟨"", [⟨"build"⟩], []⟩ 0 3 rfl).1⟩

/-- C2: in any document where task `a` has the single dependency `b`, `b`
has the single dependency `c`, `c` has no dependencies or commands, and
none of them has a description or other commands, rendering from `a`
produces exactly the three lines `a`, `b` indented two spaces, and `c`
indented four spaces. -/
theorem c2_chain_three_lines (tf : Taskfile) (a b c : String) (fuel : Nat)
    (ha : tasksGet tf a = some ⟨"", [⟨b⟩], []⟩)
    (hb : tasksGet tf b = some ⟨"", [⟨c⟩], []⟩)
    (hc : tasksGet tf c = some ⟨"", [], []⟩) :
    showDependencyTree tf (fuel + 3) a 0 = some [a, "  " ++ b, "    " ++ c] := by
  have h3 : showDependencyTree tf (fuel + 1) c (0 + 1 + 1) = some [indentStr (0 + 1 + 1) ++ c] :=
    tree_leaf tf c (0 + 1 + 1) fuel hc
  have h2 : showDependencyTree tf (fuel + 1 + 1) b (0 + 1) =
      some ((indentStr (0 + 1) ++ b) :: [indentStr (0 + 1 + 1) ++ c]) :=
    tree_single_dep tf b c (0 + 1) (fuel + 1) _ hb h3
  have h1 : showDependencyTree tf (fuel + 1 + 1 + 1) a 0 =
      some ((indentStr 0 ++ a) :: (indentStr (0 + 1) ++ b) :: [indentStr (0 + 1 + 1) ++ c]) :=
    tree_single_dep tf a b 0 (fuel + 1 + 1) _ ha h2
  have e : fuel + 3 = fuel + 1 + 1 + 1 := rfl
  rw [e, h1]
  rfl

theorem c2_chain_three_lines_witness :
    tasksGet chainTf "a" = some ⟨"", [⟨"b"⟩], []⟩ ∧
    tasksGet chainTf "b" = some ⟨"", [⟨"c"⟩], []⟩ ∧
    tasksGet chainTf "c" = some ⟨"", [], []⟩ ∧
    showDependencyTree chainTf 3 "a" 0 = some ["a", "  " ++ "b", "    " ++ "c"] :=
  ⟨rfl, rfl, rfl, c2_chain_three_lines chainTf "a" "b" "c" 0 rfl rfl rfl⟩

/-- C3: invoking the tree renderer on a task name absent from the document
at depth `d` prints exactly one line of `2*d` spaces, the name, and
` (not found)`, with no further recursion; and when such a name occurs in
a child list, the remaining siblings are still rendered by the caller
after the single not-found line. -/
theorem c3_not_found_leaf (tf : Taskfile) (name : String) (d fuel : Nat)
    (h : tasksGet tf name = none) :
    showDependencyTree tf (fuel + 1) name d =
      some [String.mk (List.replicate (2 * d) ' ') ++ name ++ " (not found)"] ∧
    ∀ (rest : List String) (e : Nat),
      showTreeChildren tf (fuel + 1) (name :: rest) e =
        Option.map
          (List.cons (String.mk (List.replicate (2 * e) ' ') ++ name ++ " (not found)"))
          (showTreeChildren tf (fuel + 1) rest e) := by
  constructor
  · rw [tree_succ_missing tf name d fuel h, indentStr_eq]
  · intro rest e
    rw [children_cons, tree_succ_missing tf name e fuel h, indentStr_eq]
    cases hr : showTreeChildren tf (fuel + 1) rest e with
    | none => rfl
    | some more => rfl

theorem c3_not_found_leaf_witness :
    tasksGet oneDefaultTf "missing" = none ∧
    showDependencyTree oneDefaultTf 1 "missing" 1 =
      some [String.mk (List.replicate (2 * 1) ' ') ++ "missing" ++ " (not found)"] :=
  ⟨rfl, (c3_not_found_leaf oneDefaultTf "missing" 1 0 rfl).1⟩

/-- C4: when the requested starting task is absent from the document, the
top-level entry does not invoke the tree renderer at all (the result does
not depend on the recursion fuel): it prints the not-found message and
then one `  - <name>` line per task in the document's iteration order;
against a document containing only `default`, the listing is exactly
`  - default`. -/
theorem c4_root_missing_listing (tf : Taskfile) (start : String) (fuel : Nat)
    (h : tasksGet tf start = none) :
    showTreeSection tf start fuel =
      some (("Task " ++ squote ++ start ++ squote ++ " not found") ::
            "Available tasks:" :: tf.map (fun p => "  - " ++ p.1)) ∧
    ∀ (t : Task) (fuel' : Nat),
      showTreeSection [("default", t)] "nonexistent" fuel' =
        some (("Task " ++ squote ++ "nonexistent" ++ squote ++ " not found") ::
              ["Available tasks:", "  - default"]) := by
  constructor
  · simp [showTreeSection, h, availableTaskLines]
  · intro t fuel'
    have hget : tasksGet [("default", t)] "nonexistent" = none := by
      simp [tasksGet]
    simp [showTreeSection, hget, availableTaskLines]

theorem c4_root_missing_listing_witness :
    tasksGet oneDefaultTf "nonexistent" = none ∧
    showTreeSection oneDefaultTf "nonexistent" 0 =
      some (("Task " ++ squote ++ "nonexistent" ++ squote ++ " not found") ::
            "Available tasks:" ::
            oneDefaultTf.map (fun p => "  - " ++ p.1)) :=
  ⟨rfl, (c4_root_missing_listing oneDefaultTf "nonexistent" 0 rfl).1⟩

/-- C8: the Flat Task Lister is a deterministic function of the merged
document in its provided iteration order: two invocations on the same
immutable document produce byte-identical output. -/
theorem c8_lister_deterministic (tf1 tf2 : Taskfile) (h : tf1 = tf2) :
    listerOutput tf1 = listerOutput tf2 ∧
    (listerOutput tf1).data = (listerOutput tf2).data := by
  subst h
  exact ⟨rfl, rfl⟩

theorem c8_lister_deterministic_witness :
    listerOutput demoTf = listerOutput demoTf ∧
    (listerOutput demoTf).data = (listerOutput demoTf).data :=
  c8_lister_deterministic demoTf demoTf rfl

/-- C9: every core operation — the inclusion-graph printer, the flat task
lister, the dependency-map builder, and the dependency-tree renderer —
leaves the task document and the inclusion graph it reads unchanged, and
the dependency-map builder neither creates nor destroys tasks: it keys
its map by exactly the document's task names in order. -/
theorem c9_frame (tf : Taskfile) (G : List Vertex) (name : String) (d fuel : Nat) :
    (inclusionPrinterOp G).2 = G ∧
    (flatTaskListerOp tf).2 = tf ∧
    (buildTaskDependencyGraphOp tf).2 = tf ∧
    (showDependencyTreeOp tf fuel name d).2 = tf ∧
    (buildTaskDependencyGraph tf).map Prod.fst = tf.map Prod.fst := by
  refine ⟨rfl, rfl, rfl, rfl, ?_⟩
  simp [buildTaskDependencyGraph]

/-- C10: for one command entry in the flat lister, the literal-command and
task-call renderings are independent: an entry with both fields empty
prints no line, an entry with both fields non-empty prints the
`- cmd: <literal>` line and then the `- task: <name>` line; and the tree
renderer collects a task-call recursion target from an entry exactly when
its task reference is non-empty, regardless of the literal string. -/
theorem c10_cmd_entry_variants :
    cmdLines ⟨"", ""⟩ = [] ∧
    (∀ s t : String, s ≠ "" → t ≠ "" →
      cmdLines ⟨s, t⟩ = ["    - cmd: " ++ s, "    - task: " ++ t]) ∧
    (∀ c : Cmd, c.task ≠ "" → taskCallRefs [c] = [c.task]) ∧
    (∀ c : Cmd, c.task = "" → taskCallRefs [c] = []) := by
  refine ⟨rfl, ?_, ?_, ?_⟩
  · intro s t hs ht
    simp [cmdLines, hs, ht]
  · intro c hc
    simp [taskCallRefs, hc]
  · intro c hc
    simp [taskCallRefs, hc]

theorem c10_cmd_entry_variants_witness :
    cmdLines ⟨"echo hi", "test"⟩ = ["    - cmd: " ++ "echo hi", "    - task: " ++ "test"] ∧
    taskCallRefs [⟨"echo hi", "test"⟩] = ["test"] ∧
    taskCallRefs [⟨"echo hi", ""⟩] = [] :=
  ⟨c10_cmd_entry_variants.2.1 "echo hi" "test" (by decide) (by decide),
   c10_cmd_entry_variants.2.2.1 ⟨"echo hi", "test"⟩ (by decide),
   c10_cmd_entry_variants.2.2.2 ⟨"echo hi", ""⟩ rfl⟩

lemma tasksGet_mem (tf : Taskfile) (name : String) (t : Task)
    (h : tasksGet tf name = some t) : (name, t) ∈ tf := by
  induction tf with
  | nil => simp [tasksGet] at h
  | cons p rest ih =>
    obtain ⟨n, t'⟩ := p
    rw [tasksGet] at h
    by_cases he : n = name
    · rw [if_pos he] at h
      subst he
      cases h
      exact List.mem_cons_self _ _
    · rw [if_neg he] at h
      exact List.mem_cons_of_mem _ (ih h)

lemma children_total (tf : Taskfile) (fuel : Nat) (names : List String) (d : Nat)
    (h : ∀ n ∈ names, ∃ out, showDependencyTree tf fuel n d = some out) :
    ∃ outs, showTreeChildren tf fuel names d = some outs := by
  induction names with
  | nil => exact ⟨[], children_nil tf fuel d⟩
  | cons n rest ih =>
    obtain ⟨o1, h1⟩ := h n (List.mem_cons_self _ _)
    obtain ⟨o2, h2⟩ := ih (fun m hm => h m (List.mem_cons_of_mem _ hm))
    refine ⟨o1 ++ o2, ?_⟩
    rw [children_cons, h1, h2]
    rfl

lemma tree_total_of_rank (tf : Taskfile) (S : String → Bool) (rank : String → Nat)
    (hclosed : ∀ p ∈ tf, S p.1 = true → ∀ c ∈ childRefs p.2, S c = true)
    (hrank : ∀ p ∈ tf, S p.1 = true → ∀ c ∈ childRefs p.2, rank c < rank p.1) :
    ∀ (k : Nat) (name : String), S name = true → rank name < k →
      ∀ d, ∃ out, showDependencyTree tf k name d = some out := by
  intro k
  induction k with
  | zero =>
    intro name _ hlt
    exact absurd hlt (Nat.not_lt_zero _)
  | succ k ih =>
    intro name hS hlt d
    cases hg : tasksGet tf name with
    | none => exact ⟨_, tree_succ_missing tf name d k hg⟩
    | some t =>
      have hmem : (name, t) ∈ tf := tasksGet_mem tf name t hg
      have hch : ∀ c ∈ childRefs t, ∃ out, showDependencyTree tf k c (d + 1) = some out := by
        intro c hc
        exact ih c (hclosed (name, t) hmem hS c hc)
          (lt_of_lt_of_le (hrank (name, t) hmem hS c hc) (Nat.lt_succ_iff.mp hlt)) (d + 1)
      obtain ⟨outs, houts⟩ := children_total tf k (childRefs t) (d + 1) hch
      refine ⟨(indentStr d ++ name ++ descSuffix t.desc) :: outs, ?_⟩
      rw [tree_succ_found tf name t d k hg, houts]
      rfl

lemma cyclic_tree_none : ∀ (fuel d : Nat),
    showDependencyTree cyclicTf fuel "a" d = none ∧
    showDependencyTree cyclicTf fuel "b" d = none := by
  intro fuel
  induction fuel with
  | zero => intro d; exact ⟨tree_zero _ _ _, tree_zero _ _ _⟩
  | succ k ih =>
    intro d
    constructor
    · rw [tree_succ_found cyclicTf "a" ⟨"", [⟨"b"⟩], []⟩ d k rfl]
      have hcr : childRefs (⟨"", [⟨"b"⟩], []⟩ : Task) = ["b"] := rfl
      rw [hcr, children_cons, (ih (d + 1)).2]
      rfl
    · rw [tree_succ_found cyclicTf "b" ⟨"", [⟨"a"⟩], []⟩ d k rfl]
      have hcr : childRefs (⟨"", [⟨"a"⟩], []⟩ : Task) = ["a"] := rfl
      rw [hcr, children_cons, (ih (d + 1)).1]
      rfl

/-- C7: the dependency-tree renderer terminates (some fuel suffices) for
every document whose dependency/task-call reference graph, restricted to
any reference-closed set of names containing the start and admitting a
decreasing rank (i.e. whose reachable part is acyclic), while on the
cyclic document in which `a` depends on `b` and `b` depends on `a` the
recursion from `a` exhausts every fuel bound — it never terminates. -/
theorem c7_termination_behaviour :
    (∀ (tf : Taskfile) (S : String → Bool) (rank : String → Nat) (start : String),
      S start = true →
      (∀ p ∈ tf, S p.1 = true → ∀ c ∈ childRefs p.2, S c = true) →
      (∀ p ∈ tf, S p.1 = true → ∀ c ∈ childRefs p.2, rank c < rank p.1) →
      ∀ d, ∃ fuel out, showDependencyTree tf fuel start d = some out) ∧
    (∀ fuel d, showDependencyTree cyclicTf fuel "a" d = none) := by
  constructor
  · intro tf S rank start hS hclosed hrank d
    obtain ⟨out, hout⟩ :=
      tree_total_of_rank tf S rank hclosed hrank (rank start + 1) start hS
        (Nat.lt_succ_self _) d
    exact ⟨rank start + 1, out, hout⟩
  · intro fuel d
    exact (cyclic_tree_none fuel d).1

theorem c7_termination_behaviour_witness :
    (∃ fuel out, showDependencyTree chainTf fuel "a" 0 = some out) ∧
    showDependencyTree cyclicTf 7 "a" 0 = none :=
  ⟨c7_termination_behaviour.1 chainTf (fun _ => true) rankChain "a" rfl
      (by decide) (by decide) 0,
   c7_termination_behaviour.2 7 0⟩

lemma mem_of_removeVertex {v x : Vertex} :
    ∀ {l : List Vertex}, x ∈ removeVertex v l → x ∈ l := by
  intro l
  induction l with
  | nil => intro h; exact absurd h (List.not_mem_nil x)
  | cons w ws ih =>
    intro h
    rw [removeVertex] at h
    by_cases he : w = v
    · rw [if_pos he] at h
      exact List.mem_cons_of_mem _ h
    · rw [if_neg he] at h
      rcases List.mem_cons.mp h with h1 | h1
      · exact h1 ▸ List.mem_cons_self _ _
      · exact List.mem_cons_of_mem _ (ih h1)

lemma mem_removeVertex_of_ne {v x : Vertex} (hne : x ≠ v) :
    ∀ {l : List Vertex}, x ∈ l → x ∈ removeVertex v l := by
  intro l
  induction l with
  | nil => intro h; exact absurd h (List.not_mem_nil x)
  | cons w ws ih =>
    intro h
    rw [removeVertex]
    by_cases he : w = v
    · rw [if_pos he]
      rcases List.mem_cons.mp h with h1 | h1
      · exact absurd (h1.trans he) hne
      · exact h1
    · rw [if_neg he]
      rcases List.mem_cons.mp h with h1 | h1
      · exact h1 ▸ List.mem_cons_self _ _
      · exact List.mem_cons_of_mem _ (ih h1)

lemma perm_cons_removeVertex {v : Vertex} :
    ∀ {l : List Vertex}, v ∈ l → l.Perm (v :: removeVertex v l) := by
  intro l
  induction l with
  | nil => intro h; exact absurd h (List.not_mem_nil v)
  | cons w ws ih =>
    intro h
    rw [removeVertex]
    by_cases he : w = v
    · rw [if_pos he]
      exact he ▸ List.Perm.refl _
    · rw [if_neg he]
      have hv : v ∈ ws := by
        rcases List.mem_cons.mp h with h1 | h1
        · exact absurd h1.symm he
        · exact h1
      exact ((ih hv).cons w).trans (List.Perm.swap v w _)

lemma length_removeVertex {v : Vertex} :
    ∀ {l : List Vertex}, v ∈ l → (removeVertex v l).length + 1 = l.length := by
  intro l
  induction l with
  | nil => intro h; exact absurd h (List.not_mem_nil v)
  | cons w ws ih =>
    intro h
    rw [removeVertex]
    by_cases he : w = v
    · rw [if_pos he]
      rfl
    · rw [if_neg he]
      have hv : v ∈ ws := by
        rcases List.mem_cons.mp h with h1 | h1
        · exact absurd h1.symm he
        · exact h1
      simp [List.length_cons, ih hv]

lemma topoAux_perm :
    ∀ (fuel : Nat) (rem order : List Vertex),
      topoAux fuel rem = some order → order.Perm rem := by
  intro fuel
  induction fuel with
  | zero =>
    intro rem order h
    cases rem with
    | nil =>
      rw [topoAux] at h
      cases h
      exact List.Perm.refl _
    | cons r rs => simp [topoAux] at h
  | succ k ih =>
    intro rem order h
    cases rem with
    | nil =>
      rw [topoAux] at h
      cases h
      exact List.Perm.refl _
    | cons r rs =>
      cases hf : (r :: rs).find? (fun v => emittable v (r :: rs)) with
      | none => simp only [topoAux, hf] at h; cases h
      | some v =>
        simp only [topoAux, hf] at h
        cases hrec : topoAux k (removeVertex v (r :: rs)) with
        | none => rw [hrec] at h; cases h
        | some ord =>
          rw [hrec] at h
          cases h
          have hv : v ∈ r :: rs := List.mem_of_find?_eq_some hf
          exact ((ih _ _ hrec).cons v).trans (perm_cons_removeVertex hv).symm

lemma topoAux_pairwise :
    ∀ (fuel : Nat) (rem order : List Vertex),
      topoAux fuel rem = some order →
      order.Pairwise (fun u w => dependsOnB u w = false) := by
  intro fuel
  induction fuel with
  | zero =>
    intro rem order h
    cases rem with
    | nil => rw [topoAux] at h; cases h; exact List.Pairwise.nil
    | cons r rs => simp [topoAux] at h
  | succ k ih =>
    intro rem order h
    cases rem with
    | nil => rw [topoAux] at h; cases h; exact List.Pairwise.nil
    | cons r rs =>
      cases hf : (r :: rs).find? (fun v => emittable v (r :: rs)) with
      | none => simp only [topoAux, hf] at h; cases h
      | some v =>
        simp only [topoAux, hf] at h
        cases hrec : topoAux k (removeVertex v (r :: rs)) with
        | none => rw [hrec] at h; cases h
        | some ord =>
          rw [hrec] at h
          cases h
          refine List.pairwise_cons.mpr ⟨?_, ih _ _ hrec⟩
          intro w hw
          have hwrem : w ∈ r :: rs :=
            mem_of_removeVertex ((topoAux_perm k _ _ hrec).mem_iff.mp hw)
          have hem : emittable v (r :: rs) = true := by
            have hp := List.find?_some hf
            simpa using hp
          have := (List.all_eq_true.mp hem) w hwrem
          simpa using this

lemma exists_min_rank (rk : Vertex → Nat) :
    ∀ (l : List Vertex), l ≠ [] → ∃ u ∈ l, ∀ w ∈ l, rk u ≤ rk w := by
  intro l
  induction l with
  | nil => intro h; exact absurd rfl h
  | cons r rs ih =>
    intro _
    by_cases hrs : rs = []
    · subst hrs
      exact ⟨r, List.mem_cons_self _ _, by
        intro w hw
        rcases List.mem_cons.mp hw with h1 | h1
        · exact h1 ▸ le_refl _
        · exact absurd h1 (List.not_mem_nil w)⟩
    · obtain ⟨u, hu, hmin⟩ := ih hrs
      by_cases hle : rk r ≤ rk u
      · refine ⟨r, List.mem_cons_self _ _, ?_⟩
        intro w hw
        rcases List.mem_cons.mp hw with h1 | h1
        · exact h1 ▸ le_refl _
        · exact hle.trans (hmin w h1)
      · refine ⟨u, List.mem_cons_of_mem _ hu, ?_⟩
        intro w hw
        rcases List.mem_cons.mp hw with h1 | h1
        · exact h1 ▸ le_of_not_le hle
        · exact hmin w h1

lemma topoAux_succeeds (rank : String → Nat) :
    ∀ (n : Nat) (rem : List Vertex), rem.length ≤ n →
      (∀ u ∈ rem, ∀ w ∈ rem, dependsOnB u w = true → rank w.uri < rank u.uri) →
      ∃ order, topoAux n rem = some order := by
  intro n
  induction n with
  | zero =>
    intro rem hlen _
    have : rem = [] := List.length_eq_zero.mp (Nat.le_zero.mp hlen)
    subst this
    exact ⟨[], by rw [topoAux]⟩
  | succ k ih =>
    intro rem hlen hrank
    cases rem with
    | nil => exact ⟨[], by rw [topoAux]⟩
    | cons r rs =>
      obtain ⟨u, hu, hmin⟩ := exists_min_rank (fun v => rank v.uri) (r :: rs) (by simp)
      have hem : emittable u (r :: rs) = true := by
        unfold emittable
        rw [List.all_eq_true]
        intro w hw
        cases hdep : dependsOnB u w with
        | false => rfl
        | true =>
          have h1 := hrank u hu w hw hdep
          have h2 := hmin w hw
          omega
      have hfind : ∃ v, (r :: rs).find? (fun v => emittable v (r :: rs)) = some v := by
        cases hf : (r :: rs).find? (fun v => emittable v (r :: rs)) with
        | none => exact absurd hem (List.find?_eq_none.mp hf u hu)
        | some v => exact ⟨v, rfl⟩
      obtain ⟨v, hv⟩ := hfind
      have hvmem : v ∈ r :: rs := List.mem_of_find?_eq_some hv
      have hlen' : (removeVertex v (r :: rs)).length ≤ k := by
        have hl := length_removeVertex hvmem
        simp only [List.length_cons] at hlen hl
        omega
      obtain ⟨ord, hord⟩ := ih (removeVertex v (r :: rs)) hlen'
        (fun a ha b hb hd =>
          hrank a (mem_of_removeVertex ha) b (mem_of_removeVertex hb) hd)
      refine ⟨v :: ord, ?_⟩
      simp [topoAux, hv, hord]

lemma printVerticesFrom_append :
    ∀ (l1 : List Vertex) (i : Nat) (v : Vertex) (l2 : List Vertex),
      printVerticesFrom i (l1 ++ v :: l2) =
        printVerticesFrom i l1 ++ vertexBlock (i + l1.length) v ++
          printVerticesFrom (i + l1.length + 1) l2 := by
  intro l1
  induction l1 with
  | nil =>
    intro i v l2
    simp [printVerticesFrom]
  | cons x xs ih =>
    intro i v l2
    show vertexBlock i x ++ printVerticesFrom (i + 1) (xs ++ v :: l2) =
      (vertexBlock i x ++ printVerticesFrom (i + 1) xs) ++
        vertexBlock (i + (xs.length + 1)) v ++
        printVerticesFrom (i + (xs.length + 1) + 1) l2
    rw [ih (i + 1)]
    have e1 : i + (xs.length + 1) = i + 1 + xs.length := by omega
    rw [e1]
    simp [List.append_assoc]

/-- C5: for every inclusion graph made acyclic by a rank that decreases
along include edges, the modelled topological sort succeeds and the
Inclusion Graph Printer prints every vertex exactly once (the printed
order is a permutation of the graph), never prints a vertex before a
vertex it depends on (no earlier vertex depends on a later one), and for
each vertex in order prints its block — 1-based position with its
location, followed by one namespace-and-locator line per include edge it
authors. -/
theorem c5_inclusion_printer (G : List Vertex) (rank : String → Nat)
    (hrank : ∀ u ∈ G, ∀ w ∈ G, dependsOnB u w = true → rank w.uri < rank u.uri) :
    ∃ order, topoSortIncludes G = some order ∧
      order.Perm G ∧
      order.Pairwise (fun u w => dependsOnB u w = false) ∧
      ∀ (l1 : List Vertex) (v : Vertex) (l2 : List Vertex), order = l1 ++ v :: l2 →
        printInclusionGraph order =
          printVerticesFrom 0 l1 ++ vertexBlock l1.length v ++
            printVerticesFrom (l1.length + 1) l2 := by
  obtain ⟨order, horder⟩ := topoAux_succeeds rank G.length G le_rfl hrank
  refine ⟨order, horder, topoAux_perm _ _ _ horder, topoAux_pairwise _ _ _ horder, ?_⟩
  intro l1 v l2 hsplit
  rw [printInclusionGraph, hsplit, printVerticesFrom_append l1 0 v l2]
  simp

theorem c5_inclusion_printer_witness :
    ∃ order, topoSortIncludes exampleGraph = some order ∧
      order.Perm exampleGraph ∧
      order.Pairwise (fun u w => dependsOnB u w = false) ∧
      ∀ (l1 : List Vertex) (v : Vertex) (l2 : List Vertex), order = l1 ++ v :: l2 →
        printInclusionGraph order =
          printVerticesFrom 0 l1 ++ vertexBlock l1.length v ++
            printVerticesFrom (l1.length + 1) l2 :=
  c5_inclusion_printer exampleGraph rankGraph (by decide)

lemma isCycle_dep (G c : List Vertex) (h : IsCycle G c) :
    ∀ u ∈ c, ∃ w ∈ c, dependsOnB u w = true := by
  intro u hu
  obtain ⟨i, hui⟩ := List.mem_iff_get.mp hu
  exact ⟨c.get ⟨(i.1 + 1) % c.length, Nat.mod_lt _ i.pos⟩, List.get_mem _ _ _,
    hui ▸ h.2.2 i⟩

lemma topoAux_stuck (S : List Vertex) (hne : S ≠ [])
    (hdep : ∀ u ∈ S, ∃ w ∈ S, dependsOnB u w = true) :
    ∀ (fuel : Nat) (rem : List Vertex), (∀ v ∈ S, v ∈ rem) → topoAux fuel rem = none := by
  intro fuel
  induction fuel with
  | zero =>
    intro rem hsub
    cases rem with
    | nil =>
      obtain ⟨s, hs⟩ := List.exists_mem_of_ne_nil S hne
      exact absurd (hsub s hs) (List.not_mem_nil s)
    | cons r rs => rw [topoAux]
  | succ k ih =>
    intro rem hsub
    cases rem with
    | nil =>
      obtain ⟨s, hs⟩ := List.exists_mem_of_ne_nil S hne
      exact absurd (hsub s hs) (List.not_mem_nil s)
    | cons r rs =>
      rw [topoAux]
      cases hf : (r :: rs).find? (fun v => emittable v (r :: rs)) with
      | none => rfl
      | some v =>
        have hvem : emittable v (r :: rs) = true := by
          have hp := List.find?_some hf
          simpa using hp
        have hvnotS : v ∉ S := by
          intro hvS
          obtain ⟨w, hwS, hdw⟩ := hdep v hvS
          have := (List.all_eq_true.mp hvem) w (hsub w hwS)
          simp [hdw] at this
        have hsub' : ∀ x ∈ S, x ∈ removeVertex v (r :: rs) := fun x hx =>
          mem_removeVertex_of_ne (fun he : x = v => hvnotS (he ▸ hx)) (hsub x hx)
        show (topoAux k (removeVertex v (r :: rs))).map (fun x => v :: x) = none
        rw [ih _ hsub']
        rfl

/-- C6: for every inclusion graph containing a cycle, the modelled
topological sort fails, and the run is cut short as a fatal error: the
whole-run output is `none`, with no inclusion-graph listing, task
listing, or dependency tree produced after the failure. -/
theorem c6_cycle_fatal (G c : List Vertex) (h : IsCycle G c) :
    topoSortIncludes G = none ∧
    ∀ (tf : Taskfile) (start : String) (fuel : Nat),
      runGraphAnalysis G tf start fuel = none := by
  have hnone : topoSortIncludes G = none := by
    unfold topoSortIncludes
    exact topoAux_stuck c h.1 (isCycle_dep G c h) G.length G h.2.1
  refine ⟨hnone, ?_⟩
  intro tf start fuel
  simp [runGraphAnalysis, hnone]

theorem c6_cycle_fatal_witness :
    IsCycle cyclicGraph cyclicGraph ∧
    topoSortIncludes cyclicGraph = none ∧
    runGraphAnalysis cyclicGraph oneDefaultTf "default" 1 = none :=
  ⟨by decide,
   (c6_cycle_fatal cyclicGraph cyclicGraph (by decide)).1,
   (c6_cycle_fatal cyclicGraph cyclicGraph (by decide)).2 oneDefaultTf "default" 1⟩

end Meerkat
